import Mathlib

/-!
Verification of the plate-recognition pipeline of the Smart Parking System
(`smart_parking/plate_scanner/scanner.py`, class `PlateScanner`).

Texts are modelled as `List Char`.  The Python regular-expression classes are
modelled over the character universe the pipeline actually works with: the OCR
reader is invoked with `allowlist='ABCDEFGHIJKLMNOPQRSTUVWXYZ0123456789-'`, so
`\w` is modelled as the ASCII word characters (letters, digits, underscore),
`\s` as ASCII whitespace, and `str.upper` as the character-wise upper-casing of
the ASCII letters plus the accented letters that occur in the scanner's
replacement table.  Confidence scores are modelled as rationals.
-/

/-- Class `[A-Z]` of the plate patterns (`re` matches exactly the ASCII uppercase range). -/
def isUpperLetter (c : Char) : Bool := 'A' ≤ c && c ≤ 'Z'

/-- ASCII whitespace, as matched by `\s`, `str.strip()` (space, tab, newline,
carriage return, vertical tab, form feed). -/
def isSpacePy (c : Char) : Bool :=
  c == ' ' || c == '\t' || c == '\n' || c == '\r' || c == Char.ofNat 11 || c == Char.ofNat 12

/-- Class `\w` (word character), modelled over ASCII: letters, digits and underscore. -/
def isWordChar (c : Char) : Bool := c.isAlphanum || c == '_'

/-- The upper-casing table backing the model of `str.upper()`: the ASCII
lowercase letters and the lowercase forms of the accented letters appearing in
`char_replacements`. -/
def upperPairs : List (Char × Char) :=
  [('a', 'A'), ('b', 'B'), ('c', 'C'), ('d', 'D'), ('e', 'E'), ('f', 'F'),
   ('g', 'G'), ('h', 'H'), ('i', 'I'), ('j', 'J'), ('k', 'K'), ('l', 'L'),
   ('m', 'M'), ('n', 'N'), ('o', 'O'), ('p', 'P'), ('q', 'Q'), ('r', 'R'),
   ('s', 'S'), ('t', 'T'), ('u', 'U'), ('v', 'V'), ('w', 'W'), ('x', 'X'),
   ('y', 'Y'), ('z', 'Z'),
   ('ø', 'Ø'), ('ö', 'Ö'), ('ó', 'Ó'),
   ('í', 'Í'), ('ì', 'Ì'), ('î', 'Î'),
   ('é', 'É'), ('è', 'È'), ('ê', 'Ê'),
   ('á', 'Á'), ('à', 'À'), ('â', 'Â'),
   ('ñ', 'Ñ'), ('ń', 'Ń'),
   ('ü', 'Ü'), ('û', 'Û')]

/-- Character-wise model of `str.upper()`: characters in the table are
upper-cased, everything else is unchanged. -/
def pyUpper (c : Char) : Char := (upperPairs.lookup c).getD c

/-- Table `self.char_replacements` (scanner.py lines 81-99).  The Python dict literal
assigns the key `'G'` twice (`'G': '0'` then `'G': '6'`); as in any Python
dict the later assignment wins, so the table maps `'G'` to `'6'`. -/
def char_replacements : List (Char × Char) :=
  [('O', '0'), ('Q', '0'), ('D', '0'), ('G', '6'), ('C', '0'),
   ('I', '1'), ('L', '1'), ('T', '1'), ('J', '1'),
   ('B', '8'), ('S', '5'), ('Z', '2'), ('A', '4'),
   ('E', '3'), ('F', '3'),
   ('H', '4'), ('M', '4'),
   ('N', '7'), ('P', '7'),
   ('R', '2'), ('U', '2'),
   ('V', '7'), ('W', '7'),
   ('X', '4'), ('Y', '4'),
   ('K', '8'),
   ('Ø', '0'), ('Ö', '0'), ('Ó', '0'),
   ('Í', '1'), ('Ì', '1'), ('Î', '1'),
   ('É', '3'), ('È', '3'), ('Ê', '3'),
   ('Á', '4'), ('À', '4'), ('Â', '4'),
   ('Ñ', '7'), ('Ń', '7'),
   ('Ü', '2'), ('Û', '2')]

/-- The character-wise effect of the replacement loop of `clean_text`
(every key is a single character replaced by a single digit, and no
replacement value is itself a key, so the sequential `str.replace` calls
amount to one character-wise substitution). -/
def replaceChar (c : Char) : Char := (char_replacements.lookup c).getD c

/-- List `self.noise_chars` (scanner.py line 102).  Note that the list contains the
hyphen. -/
def noise_chars : List Char :=
  ['|', '/', '\\', '(', ')', '[', ']', Char.ofNat 123, Char.ofNat 125, '<', '>',
   '=', '+', '*', '&', '^', '%', '$', '#', '@', '!', '?', '.', ',', ';', ':',
   Char.ofNat 34, Char.ofNat 39, Char.ofNat 96, '~', '_', '-']

/-- Model of `str.strip(cs)`: drop the maximal run of characters satisfying `p` from
both ends. -/
def stripChars (p : Char → Bool) (l : List Char) : List Char :=
  ((l.dropWhile p).reverse.dropWhile p).reverse

/-- The successive transformations of `clean_text` (scanner.py lines 186-209):
upper-case and strip outer whitespace, remove the noise characters, remove all
whitespace (`re.sub(r'\s+', '')`), apply the character replacements, remove
any remaining character that is not a word character or hyphen
(`re.sub(r'[^\w-]', '')`), and strip leading/trailing hyphens. -/
def cleanStages (l : List Char) : List Char :=
  stripChars (fun c => c == '-')
    (List.filter (fun c => isWordChar c || c == '-')
      (List.map replaceChar
        (List.filter (fun c => !(isSpacePy c))
          (List.filter (fun c => !(noise_chars.contains c))
            (stripChars isSpacePy (List.map pyUpper l))))))

/-- Function `clean_text` (scanner.py lines 186-215): the staged cleaning followed by
the length filter (reject below 3 or above 12 characters). -/
def clean_text (l : List Char) : Option (List Char) :=
  if l.isEmpty then none
  else if (cleanStages l).length < 3 || 12 < (cleanStages l).length then none
  else some (cleanStages l)

/-- One block of a plate pattern: a run of `n` uppercase letters, a run of `n`
digits, or a literal hyphen. -/
inductive Seg where
  | letters : Nat → Seg
  | digitRun : Nat → Seg
  | hyphen : Seg
deriving DecidableEq, Repr

/-- Anchored matching (`re.fullmatch`) of a block list against a text. -/
def segMatch : List Seg → List Char → Bool
  | [], l => l.isEmpty
  | Seg.letters n :: ps, l =>
      decide (n ≤ l.length) && (l.take n).all isUpperLetter && segMatch ps (l.drop n)
  | Seg.digitRun n :: ps, l =>
      decide (n ≤ l.length) && (l.take n).all Char.isDigit && segMatch ps (l.drop n)
  | Seg.hyphen :: ps, l =>
      match l with
      | c :: rest => c == '-' && segMatch ps rest
      | [] => false

open Seg in
/-- List `self.plate_patterns` (scanner.py lines 47-78), with each counted
repetition `{2,3}` or `{1,2}` expanded into its two exact-count alternatives
(an exact equivalence for these patterns).  `validate_plate` and
`try_enhanced_ocr_corrections` only ever use whether some pattern matches, so
the order of the list is immaterial to the scanner's behaviour. -/
def plate_patterns : List (List Seg) :=
  [[letters 2, hyphen, digitRun 4], [letters 3, hyphen, digitRun 4],
   [letters 2, digitRun 4], [letters 3, digitRun 4],
   [digitRun 3, hyphen, digitRun 4],
   [digitRun 7],
   [letters 2, hyphen, digitRun 3], [letters 3, hyphen, digitRun 3],
   [letters 2, digitRun 3], [letters 3, digitRun 3],
   [letters 1, hyphen, digitRun 5], [letters 2, hyphen, digitRun 5],
   [letters 1, digitRun 5], [letters 2, digitRun 5],
   [letters 2, hyphen, digitRun 3, letters 1], [letters 2, digitRun 3, letters 1],
   [letters 1, hyphen, digitRun 6], [letters 1, digitRun 6],
   [letters 4, hyphen, digitRun 3], [letters 4, digitRun 3],
   [letters 2, hyphen, digitRun 2, letters 2], [letters 2, digitRun 2, letters 2],
   [letters 3, hyphen, digitRun 2, letters 1], [letters 3, digitRun 2, letters 1],
   [digitRun 2, hyphen, letters 3, digitRun 2], [digitRun 2, letters 3, digitRun 2]]

/-- Test `any(pattern.fullmatch(text) for pattern in self.plate_patterns)`. -/
def matchesAnyPattern (l : List Char) : Bool :=
  plate_patterns.any (fun p => segMatch p l)

/-- Python `str.isalpha()` on a slice: non-empty and all alphabetic. -/
def pyIsAlpha (l : List Char) : Bool := !l.isEmpty && l.all Char.isAlpha

/-- Python `str.isdigit()` on a slice: non-empty and all digits. -/
def pyIsDigitStr (l : List Char) : Bool := !l.isEmpty && l.all Char.isDigit

/-- Function `format_plate_with_hyphen` (scanner.py lines 250-271). -/
def format_plate_with_hyphen (t : List Char) : Option (List Char) :=
  if t.length < 4 then none
  else if pyIsAlpha (t.take 2) && decide (6 ≤ t.length) then some (t.take 2 ++ '-' :: t.drop 2)
  else if pyIsAlpha (t.take 3) && decide (7 ≤ t.length) then some (t.take 3 ++ '-' :: t.drop 3)
  else if pyIsDigitStr (t.take 3) && decide (7 ≤ t.length) then some (t.take 3 ++ '-' :: t.drop 3)
  else if pyIsAlpha (t.take 1) && decide (6 ≤ t.length) then some (t.take 1 ++ '-' :: t.drop 1)
  else if pyIsAlpha (t.take 2) && decide (7 ≤ t.length) then some (t.take 2 ++ '-' :: t.drop 2)
  else if pyIsAlpha (t.take 4) && decide (7 ≤ t.length) then some (t.take 4 ++ '-' :: t.drop 4)
  else if pyIsDigitStr (t.take 2) && decide (6 ≤ t.length) then some (t.take 2 ++ '-' :: t.drop 2)
  else none

/-- Python `str.replace(old, new)` for a non-empty `old` (head `p`, tail `ps`):
replace the non-overlapping occurrences of `old` from left to right by `rep`.
The structural fuel is the input length, which each step strictly decreases,
so the fuel never runs out when `replaceSub` supplies it. -/
def replaceSubFuel (p : Char) (ps rep : List Char) : ℕ → List Char → List Char
  | _, [] => []
  | 0, l => l
  | fuel + 1, c :: cs =>
    if (p :: ps).isPrefixOf (c :: cs) then rep ++ replaceSubFuel p ps rep fuel (cs.drop ps.length)
    else c :: replaceSubFuel p ps rep fuel cs

def replaceSub (p : Char) (ps rep l : List Char) : List Char :=
  replaceSubFuel p ps rep l.length l

/-- Model of `text.replace(old, new)` dispatching on the head of `old` (all the
correction pairs have a non-empty `old`). -/
def applyReplace (old rep l : List Char) : List Char :=
  match old with
  | [] => l
  | p :: ps => replaceSub p ps rep l

/-- The `corrections` pair list of `try_enhanced_ocr_corrections`
(scanner.py lines 279-291), in source order. -/
def correctionPairs : List (List Char × List Char) :=
  [(['0'], ['O']), (['1'], ['I']), (['1'], ['L']), (['5'], ['S']), (['8'], ['B']), (['2'], ['Z']),
   (['O'], ['0']), (['I'], ['1']), (['L'], ['1']), (['S'], ['5']), (['B'], ['8']), (['Z'], ['2']),
   ([' '], []), ([' ', ' '], []),
   (['G'], ['6']), (['G'], ['9']), (['6'], ['G']), (['9'], ['G']),
   (['A'], ['4']), (['4'], ['A']),
   (['E'], ['3']), (['3'], ['E']),
   (['N'], ['7']), (['7'], ['N']),
   (['R'], ['2']), (['2'], ['R'])]

/-- Function `try_enhanced_ocr_corrections` (scanner.py lines 273-325): substitution
corrections, then hyphen insertion at positions `range(2, min(6, len-2))`,
then hyphen removal, then single-character deletion; each phase returns the
first mutation that matches some plate pattern. -/
def try_enhanced_ocr_corrections (t : List Char) : Option (List Char) :=
  if t.length < 5 then none
  else
    match correctionPairs.findSome? (fun pr =>
        let c := applyReplace pr.1 pr.2 t
        if matchesAnyPattern c then some c else none) with
    | some r => some r
    | none =>
      match (if !(t.contains '-') && decide (6 ≤ t.length) then
              (List.range' 2 (min 6 (t.length - 2) - 2)).findSome? (fun i =>
                let c := t.take i ++ '-' :: t.drop i
                if matchesAnyPattern c then some c else none)
             else none) with
      | some r => some r
      | none =>
        match (if t.contains '-' then
                (let c := t.filter (fun ch => !(ch == '-'))
                 if matchesAnyPattern c then some c else none)
               else none) with
        | some r => some r
        | none =>
          if decide (6 ≤ t.length) then
            (List.range t.length).findSome? (fun i =>
              let c := t.eraseIdx i
              if matchesAnyPattern c then some c else none)
          else none

/-- Function `validate_plate` (scanner.py lines 217-248): re-clean the input, accept on
a pattern match (formatting a hyphen in when absent), otherwise fall back to
the enhanced corrections. -/
def validate_plate (l : List Char) : Option (List Char) :=
  if l.isEmpty then none
  else
    match clean_text l with
    | none => none
    | some t =>
      if t.length < 3 then none
      else if matchesAnyPattern t then
        if !(t.contains '-') then
          match format_plate_with_hyphen t with
          | some f => some f
          | none => some t
        else some t
      else try_enhanced_ocr_corrections t

/-! ## Confidence thresholds (scanner.py lines 104-107) -/

def min_confidence : ℚ := 2/10
def high_confidence : ℚ := 7/10
def excellent_confidence : ℚ := 85/100

/-- One entry of `plate_candidates` in `scan_until_plate` (scanner.py lines
759-774): sighting count, cumulative confidence and maximum confidence of one
tracked text (the remembered frame and plate-info dict are not modelled). -/
structure CandRec where
  count : ℕ
  total : ℚ
  maxConf : ℚ
deriving DecidableEq, Repr

/-- Update of `plate_candidates` by one candidate `(text, confidence)`:
a fresh text is appended (Python dicts preserve insertion order, so the list
order is the order candidates were first seen), an existing entry has its
count, cumulative and maximum confidence updated in place. -/
def updateRecord : List (String × CandRec) → String × ℚ → List (String × CandRec)
  | [], c => [(c.1, ⟨1, c.2, max 0 c.2⟩)]
  | (t, r) :: rest, c =>
    if t = c.1 then (t, ⟨r.count + 1, r.total + c.2, max r.maxConf c.2⟩) :: rest
    else (t, r) :: updateRecord rest c

/-- Processing of all candidates of one observation cycle. -/
def updateCycle (recs : List (String × CandRec)) (cands : List (String × ℚ)) :
    List (String × CandRec) :=
  cands.foldl updateRecord recs

/-- The acceptance criteria of `scan_until_plate` (scanner.py lines 792-794):
maximum confidence above the excellent threshold, or at least two sightings
with average above the high threshold, or at least three sightings with
average above the minimum threshold. -/
def acceptsRecord (r : CandRec) : Bool :=
  decide (excellent_confidence < r.maxConf) ||
  (decide (2 ≤ r.count) && decide (high_confidence < r.total / (r.count : ℚ))) ||
  (decide (3 ≤ r.count) && decide (min_confidence < r.total / (r.count : ℚ)))

/-- The acceptance sweep `for plate_text, candidate_info in
plate_candidates.items()`: the first tracked text, in first-seen order, whose
record meets some acceptance criterion. -/
def findAccept (recs : List (String × CandRec)) : Option (String × CandRec) :=
  recs.find? (fun p => acceptsRecord p.2)

/-- The consistency-voting core of `scan_until_plate` (scanner.py lines
752-804), abstracted over the sequence of per-cycle candidate lists: each
non-empty cycle updates the records and then sweeps them for an acceptable
text, and the scan returns the first acceptance. -/
def runCycles : List (List (String × ℚ)) → List (String × CandRec) → Option (String × CandRec)
  | [], _ => none
  | c :: cs, recs =>
    if c.isEmpty then runCycles cs recs
    else
      match findAccept (updateCycle recs c) with
      | some r => some r
      | none => runCycles cs (updateCycle recs c)

/-! ## The timed scan loop (scanner.py lines 731-816)

The loop is modelled with a discrete clock: every iteration ends in
`time.sleep(0.033)`, so one iteration advances the wall clock by (at least)
`frameDelta = 0.033` seconds; the model charges exactly `frameDelta` per
iteration.  Iteration `j+1` processes a frame only when `(j+1) % 2 = 0`
(`frame_skip = 2`); `cycles (j+1)` is the candidate list `process_frame`
produced at that iteration.  The second component of the result is the
modelled elapsed time on return. -/

def frameDelta : ℚ := 33/1000

/-- The number of iterations after which `time.time() - start < timeout`
first fails under the discrete clock. -/
def scan_iterations (timeout : ℚ) : ℕ := ⌈timeout / frameDelta⌉₊

/-- The record state after `k` loop iterations: only even iterations process
a frame and fold its candidates into the records. -/
def recsAt (cycles : ℕ → List (String × ℚ)) : ℕ → List (String × CandRec)
  | 0 => []
  | k + 1 =>
    if (k + 1) % 2 == 0 then updateCycle (recsAt cycles k) (cycles (k + 1))
    else recsAt cycles k

/-- The `while time.time() - start_time < timeout` loop of `scan_until_plate`:
`j` iterations are already complete (elapsed time `j * frameDelta`). -/
def scanGo (timeout : ℚ) (cycles : ℕ → List (String × ℚ)) (j : ℕ)
    (recs : List (String × CandRec)) : Option (String × CandRec) × ℚ :=
  if h : (j : ℚ) * frameDelta < timeout then
    if (j + 1) % 2 ≠ 0 then scanGo timeout cycles (j + 1) recs
    else if (cycles (j + 1)).isEmpty then scanGo timeout cycles (j + 1) recs
    else
      match findAccept (updateCycle recs (cycles (j + 1))) with
      | some r => (some r, ((j + 1 : ℕ) : ℚ) * frameDelta)
      | none => scanGo timeout cycles (j + 1) (updateCycle recs (cycles (j + 1)))
  else (none, (j : ℚ) * frameDelta)
termination_by scan_iterations timeout - j
decreasing_by
  all_goals
    have hj : j < scan_iterations timeout := by
      have hd : (0 : ℚ) < frameDelta := by norm_num [frameDelta]
      have : (j : ℚ) < timeout / frameDelta := by
        rw [lt_div_iff₀ hd]; exact h
      exact Nat.lt_ceil.mpr this
    omega

/-- Function `scan_until_plate(timeout)` (scanner.py lines 731-816), under the discrete
clock model: loop from an empty candidate map. -/
def scan_until_plate (timeout : ℚ) (cycles : ℕ → List (String × ℚ)) :
    Option (String × CandRec) × ℚ :=
  scanGo timeout cycles 0 []

/-! ## `process_frame` (scanner.py lines 467-564) -/

/-- Constant `self.scan_cooldown = 1.0` (scanner.py line 39). -/
def scan_cooldown : ℚ := 1

/-- The deduplication loop of `process_frame` (scanner.py lines 520-528):
walk the raw OCR detections in order; a detection whose cleaned text is new
(and at least 3 characters) is kept, with that detection's raw confidence;
later detections cleaning to an already-seen text are dropped. -/
def dedup_detections : List (List Char × ℚ) → List (List Char) → List (List Char × ℚ)
  | [], _ => []
  | (t, p) :: rs, seen =>
    match clean_text t with
    | some c =>
      if !(seen.contains c) && decide (3 ≤ c.length) then
        (c, p) :: dedup_detections rs (c :: seen)
      else dedup_detections rs seen
    | none => dedup_detections rs seen

/-- Model of `unique_results.sort(key=lambda x: x[2], reverse=True)`: stable sort by
descending confidence. -/
def sortByConfDesc (l : List (List Char × ℚ)) : List (List Char × ℚ) :=
  l.mergeSort (fun a b => decide (b.2 ≤ a.2))

/-- The scanner state that `process_frame` consults and updates.
`framesRead` instruments the model: it counts `self.camera.read()` calls, so
the phrase returns-without-reading-a-frame becomes: `framesRead` unchanged. -/
structure ScannerState where
  scanning : Bool
  cameraOpen : Bool
  last_scan_time : ℚ
  framesRead : ℕ
deriving DecidableEq, Repr

/-- The plate list built by `process_frame` (scanner.py lines 530-547): the
deduplicated detections sorted by descending confidence, keeping those above
the minimum raw-confidence floor whose text the validator accepts. -/
def framePlates (dets : List (List Char × ℚ)) : List (List Char × ℚ) :=
  (sortByConfDesc (dedup_detections dets [])).filterMap (fun tp =>
    if min_confidence < tp.2 then (validate_plate tp.1).map (fun v => (v, tp.2)) else none)

/-- Function `process_frame` (scanner.py lines 467-564).  Inputs of one call: the
current wall-clock time `now`, whether the camera read succeeds, and the raw
`(text, confidence)` detections the OCR ensemble yields on this frame (image
preprocessing and the OCR engine itself are the black box producing them).
Output: the `(frame, plates)` pair (the frame modelled as `Option Unit`) and
the successor state.  A valid plate sets `last_scan_time` to `now`, starting
the cooldown window. -/
def process_frame (st : ScannerState) (now : ℚ) (readOk : Bool)
    (dets : List (List Char × ℚ)) : (Option Unit × List (List Char × ℚ)) × ScannerState :=
  if !(st.scanning && st.cameraOpen) then ((none, []), st)
  else if now - st.last_scan_time < scan_cooldown then ((none, []), st)
  else if !readOk then ((none, []), { st with framesRead := st.framesRead + 1 })
  else if (framePlates dets).isEmpty then
    ((some (), framePlates dets), { st with framesRead := st.framesRead + 1 })
  else
    ((some (), framePlates dets),
      { st with framesRead := st.framesRead + 1, last_scan_time := now })

/-! ## Generic helper lemmas -/

theorem lookup_mem {α β : Type} [BEq α] [LawfulBEq α] {ps : List (α × β)} {k : α} {v : β}
    (h : ps.lookup k = some v) : (k, v) ∈ ps := by
  induction ps with
  | nil => simp [List.lookup] at h
  | cons p rest ih =>
    obtain ⟨a, b⟩ := p
    rw [List.lookup] at h
    by_cases hk : (k == a) = true
    · rw [hk] at h
      simp only [Option.some.injEq] at h
      subst h
      have : k = a := by simpa using hk
      subst this
      exact List.mem_cons_self _ _
    · have hk' : (k == a) = false := by simpa using hk
      rw [hk'] at h
      exact List.mem_cons_of_mem _ (ih h)

theorem char_eq_of_toNat {c : Char} {n : ℕ} (h : c.toNat = n) : c = Char.ofNat n := by
  rw [← h, Char.ofNat_toNat]

theorem digit_cases {c : Char} (h : c.isDigit = true) :
    c = '0' ∨ c = '1' ∨ c = '2' ∨ c = '3' ∨ c = '4' ∨
    c = '5' ∨ c = '6' ∨ c = '7' ∨ c = '8' ∨ c = '9' := by
  unfold Char.isDigit at h
  simp only [Bool.and_eq_true, decide_eq_true_eq] at h
  obtain ⟨h1, h2⟩ := h
  have h1' : 48 ≤ c.toNat := h1
  have h2' : c.toNat ≤ 57 := h2
  have hh : c.toNat = 48 ∨ c.toNat = 49 ∨ c.toNat = 50 ∨ c.toNat = 51 ∨ c.toNat = 52 ∨
      c.toNat = 53 ∨ c.toNat = 54 ∨ c.toNat = 55 ∨ c.toNat = 56 ∨ c.toNat = 57 := by omega
  rcases hh with h|h|h|h|h|h|h|h|h|h <;> rw [char_eq_of_toNat h] <;> simp [Char.ofNat]

theorem upper_lookup_isSome {c : Char} (h : isUpperLetter c = true) :
    (char_replacements.lookup c).isSome = true := by
  unfold isUpperLetter at h
  simp only [Bool.and_eq_true, decide_eq_true_eq] at h
  obtain ⟨h1, h2⟩ := h
  have h1' : 'A'.toNat ≤ c.toNat := Char.le_def.mp h1
  have h2' : c.toNat ≤ 'Z'.toNat := Char.le_def.mp h2
  have ha : 'A'.toNat = 65 := rfl
  have hz : 'Z'.toNat = 90 := rfl
  have hh : c.toNat = 65 ∨ c.toNat = 66 ∨ c.toNat = 67 ∨ c.toNat = 68 ∨ c.toNat = 69 ∨
      c.toNat = 70 ∨ c.toNat = 71 ∨ c.toNat = 72 ∨ c.toNat = 73 ∨ c.toNat = 74 ∨
      c.toNat = 75 ∨ c.toNat = 76 ∨ c.toNat = 77 ∨ c.toNat = 78 ∨ c.toNat = 79 ∨
      c.toNat = 80 ∨ c.toNat = 81 ∨ c.toNat = 82 ∨ c.toNat = 83 ∨ c.toNat = 84 ∨
      c.toNat = 85 ∨ c.toNat = 86 ∨ c.toNat = 87 ∨ c.toNat = 88 ∨ c.toNat = 89 ∨
      c.toNat = 90 := by omega
  rcases hh with h|h|h|h|h|h|h|h|h|h|h|h|h|h|h|h|h|h|h|h|h|h|h|h|h|h <;>
    rw [char_eq_of_toNat h] <;> decide

theorem lower_lookup_isSome {c : Char} (h : Char.isLower c = true) :
    (upperPairs.lookup c).isSome = true := by
  unfold Char.isLower at h
  simp only [Bool.and_eq_true, decide_eq_true_eq] at h
  obtain ⟨h1, h2⟩ := h
  have h1' : 97 ≤ c.toNat := h1
  have h2' : c.toNat ≤ 122 := h2
  have hh : c.toNat = 97 ∨ c.toNat = 98 ∨ c.toNat = 99 ∨ c.toNat = 100 ∨ c.toNat = 101 ∨
      c.toNat = 102 ∨ c.toNat = 103 ∨ c.toNat = 104 ∨ c.toNat = 105 ∨ c.toNat = 106 ∨
      c.toNat = 107 ∨ c.toNat = 108 ∨ c.toNat = 109 ∨ c.toNat = 110 ∨ c.toNat = 111 ∨
      c.toNat = 112 ∨ c.toNat = 113 ∨ c.toNat = 114 ∨ c.toNat = 115 ∨ c.toNat = 116 ∨
      c.toNat = 117 ∨ c.toNat = 118 ∨ c.toNat = 119 ∨ c.toNat = 120 ∨ c.toNat = 121 ∨
      c.toNat = 122 := by omega
  rcases hh with h|h|h|h|h|h|h|h|h|h|h|h|h|h|h|h|h|h|h|h|h|h|h|h|h|h <;>
    rw [char_eq_of_toNat h] <;> decide

theorem digit_char_facts {c : Char} (h : c.isDigit = true) :
    pyUpper c = c ∧ replaceChar c = c ∧ noise_chars.contains c = false ∧
    isSpacePy c = false ∧ isWordChar c = true ∧ isUpperLetter c = false ∧
    Char.isAlpha c = false ∧ (c == '-') = false := by
  rcases digit_cases h with h|h|h|h|h|h|h|h|h|h <;> subst h <;> decide

theorem pyUpper_not_lower (c : Char) : Char.isLower (pyUpper c) = false := by
  unfold pyUpper
  cases h : upperPairs.lookup c with
  | some v =>
    simp only [Option.getD_some]
    have hv : (c, v) ∈ upperPairs := lookup_mem h
    have hall : ∀ pr ∈ upperPairs, Char.isLower pr.2 = false := by decide
    exact hall _ hv
  | none =>
    simp only [Option.getD_none]
    by_cases hl : Char.isLower c = true
    · have := lower_lookup_isSome hl
      rw [h] at this
      simp at this
    · simpa using hl

theorem replaceChar_output_digit {c : Char}
    (hn : noise_chars.contains c = false)
    (hl : Char.isLower c = false)
    (hw : isWordChar (replaceChar c) = true) :
    (replaceChar c).isDigit = true := by
  unfold replaceChar at hw ⊢
  cases h : char_replacements.lookup c with
  | some v =>
    simp only [Option.getD_some]
    have hv : (c, v) ∈ char_replacements := lookup_mem h
    have hall : ∀ pr ∈ char_replacements, Char.isDigit pr.2 = true := by decide
    exact hall _ hv
  | none =>
    rw [h] at hw
    simp only [Option.getD_none] at hw ⊢
    unfold isWordChar at hw
    rw [Bool.or_eq_true] at hw
    rcases hw with han | hund
    · unfold Char.isAlphanum at han
      rw [Bool.or_eq_true] at han
      rcases han with hal | hdig
      · unfold Char.isAlpha at hal
        rw [Bool.or_eq_true] at hal
        rcases hal with hup | hlo
        · have hup' : isUpperLetter c = true := by
            unfold Char.isUpper at hup
            unfold isUpperLetter
            exact hup
          have := upper_lookup_isSome hup'
          rw [h] at this
          simp at this
        · rw [hlo] at hl
          exact absurd hl (by simp)
      · exact hdig
    · have : c = '_' := by simpa using hund
      subst this
      exact absurd hn (by decide)

theorem mem_stripChars {p : Char → Bool} {l : List Char} {c : Char}
    (h : c ∈ stripChars p l) : c ∈ l := by
  unfold stripChars at h
  have h1 := List.mem_reverse.mp h
  have h2 := (List.dropWhile_sublist (l := (l.dropWhile p).reverse) (p := p)).mem h1
  have h3 := List.mem_reverse.mp h2
  exact (List.dropWhile_sublist (l := l) (p := p)).mem h3

/-- Every character of a cleaned text is a decimal digit: the noise list
removes every hyphen and underscore, upper-casing leaves no lowercase letters,
the replacement table maps every uppercase letter to a digit, and the final
`[^\w-]` filter removes everything else. -/
theorem cleanStages_all_digits (l : List Char) : (cleanStages l).all Char.isDigit = true := by
  rw [List.all_eq_true]
  intro c hc
  unfold cleanStages at hc
  have hc6 := mem_stripChars hc
  rw [List.mem_filter] at hc6
  obtain ⟨hc5, hcword⟩ := hc6
  rw [List.mem_map] at hc5
  obtain ⟨c₀, hc4, rfl⟩ := hc5
  rw [List.mem_filter] at hc4
  obtain ⟨hc3, _⟩ := hc4
  rw [List.mem_filter] at hc3
  obtain ⟨hc2, hnoise⟩ := hc3
  have hc1 := mem_stripChars hc2
  rw [List.mem_map] at hc1
  obtain ⟨c₁, _, rfl⟩ := hc1
  have hnoise' : noise_chars.contains (pyUpper c₁) = false := by
    simpa using hnoise
  have hnl : Char.isLower (pyUpper c₁) = false := pyUpper_not_lower c₁
  rw [Bool.or_eq_true] at hcword
  rcases hcword with hw | hh
  · exact replaceChar_output_digit hnoise' hnl hw
  · exfalso
    have heq : replaceChar (pyUpper c₁) = '-' := by simpa using hh
    unfold replaceChar at heq
    cases h : char_replacements.lookup (pyUpper c₁) with
    | some v =>
      rw [h] at heq
      simp only [Option.getD_some] at heq
      have hv : (pyUpper c₁, v) ∈ char_replacements := lookup_mem h
      have hall : ∀ pr ∈ char_replacements, Char.isDigit pr.2 = true := by decide
      have hd : v.isDigit = true := hall _ hv
      rw [heq] at hd
      exact absurd hd (by decide)
    | none =>
      rw [h] at heq
      simp only [Option.getD_none] at heq
      rw [heq] at hnoise'
      exact absurd hnoise' (by decide)

theorem clean_text_all_digits {l t : List Char} (h : clean_text l = some t) :
    t.all Char.isDigit = true := by
  unfold clean_text at h
  split_ifs at h
  · injection h with h
    rw [← h]
    exact cleanStages_all_digits l

theorem clean_text_length {l t : List Char} (h : clean_text l = some t) :
    3 ≤ t.length ∧ t.length ≤ 12 := by
  unfold clean_text at h
  split_ifs at h with h1 h2
  · simp only [Bool.or_eq_true, decide_eq_true_eq, not_or, not_lt] at h2
    injection h with h
    rw [← h]
    omega

theorem dropWhile_eq_self_of {p : Char → Bool} {l : List Char}
    (h : ∀ c ∈ l, p c = false) : l.dropWhile p = l := by
  cases l with
  | nil => rfl
  | cons a as =>
    rw [List.dropWhile_cons, h a (List.mem_cons_self a as)]
    simp

theorem stripChars_eq_self {p : Char → Bool} {l : List Char}
    (h : ∀ c ∈ l, p c = false) : stripChars p l = l := by
  unfold stripChars
  rw [dropWhile_eq_self_of h,
    dropWhile_eq_self_of (fun c hc => h c (List.mem_reverse.mp hc)),
    List.reverse_reverse]

theorem map_eq_self_of {f : Char → Char} {l : List Char}
    (h : ∀ c ∈ l, f c = c) : l.map f = l := by
  induction l with
  | nil => rfl
  | cons a as ih =>
    rw [List.map_cons, h a (List.mem_cons_self a as),
      ih (fun c hc => h c (List.mem_cons_of_mem a hc))]

theorem all_digits_no_hyphen {l : List Char} (h : l.all Char.isDigit = true) :
    l.contains '-' = false := by
  rw [List.all_eq_true] at h
  by_cases hc : l.contains '-' = true
  · have hm : '-' ∈ l := List.elem_iff.mp hc
    exact absurd (h _ hm) (by decide)
  · simpa using hc

/-- Cleaning is the identity on a list of digits (no stage touches a digit). -/
theorem cleanStages_digits_id {l : List Char} (h : l.all Char.isDigit = true) :
    cleanStages l = l := by
  rw [List.all_eq_true] at h
  unfold cleanStages
  rw [show List.map pyUpper l = l from
    map_eq_self_of (fun c hc => (digit_char_facts (h c hc)).1)]
  rw [show stripChars isSpacePy l = l from
    stripChars_eq_self (fun c hc => (digit_char_facts (h c hc)).2.2.2.1)]
  rw [show List.filter (fun c => !(noise_chars.contains c)) l = l from
    List.filter_eq_self.mpr (fun c hc => by rw [(digit_char_facts (h c hc)).2.2.1]; rfl)]
  rw [show List.filter (fun c => !(isSpacePy c)) l = l from
    List.filter_eq_self.mpr (fun c hc => by rw [(digit_char_facts (h c hc)).2.2.2.1]; rfl)]
  rw [show List.map replaceChar l = l from
    map_eq_self_of (fun c hc => (digit_char_facts (h c hc)).2.1)]
  rw [show List.filter (fun c => isWordChar c || c == '-') l = l from
    List.filter_eq_self.mpr (fun c hc => by rw [(digit_char_facts (h c hc)).2.2.2.2.1]; rfl)]
  exact stripChars_eq_self (fun c hc => (digit_char_facts (h c hc)).2.2.2.2.2.2.2)

/-- Cleaning a digit string with one interior hyphen removes exactly the
hyphen (the hyphen is in the noise list). -/
theorem cleanStages_digits_hyphen {u v : List Char}
    (hu : u.all Char.isDigit = true) (hv : v.all Char.isDigit = true) :
    cleanStages (u ++ '-' :: v) = u ++ v := by
  rw [List.all_eq_true] at hu hv
  have hcase : ∀ c ∈ u ++ '-' :: v, c.isDigit = true ∨ c = '-' := by
    intro c hc
    rcases List.mem_append.mp hc with hcu | hcv
    · exact Or.inl (hu c hcu)
    · rcases List.mem_cons.mp hcv with rfl | hcv'
      · exact Or.inr rfl
      · exact Or.inl (hv c hcv')
  have hall : ∀ c ∈ u ++ v, c.isDigit = true := by
    intro c hc
    rcases List.mem_append.mp hc with hcu | hcv
    · exact hu c hcu
    · exact hv c hcv
  unfold cleanStages
  rw [show List.map pyUpper (u ++ '-' :: v) = u ++ '-' :: v from
    map_eq_self_of (fun c hc => by
      rcases hcase c hc with hd | rfl
      · exact (digit_char_facts hd).1
      · decide)]
  rw [show stripChars isSpacePy (u ++ '-' :: v) = u ++ '-' :: v from
    stripChars_eq_self (fun c hc => by
      rcases hcase c hc with hd | rfl
      · exact (digit_char_facts hd).2.2.2.1
      · decide)]
  rw [show List.filter (fun c => !(noise_chars.contains c)) (u ++ '-' :: v) = u ++ v by
    rw [List.filter_append, List.filter_cons]
    rw [show (!noise_chars.contains '-') = false by decide]
    simp only [Bool.false_eq_true, if_false]
    rw [List.filter_eq_self.mpr (fun c hc => by rw [(digit_char_facts (hu c hc)).2.2.1]; rfl)]
    rw [List.filter_eq_self.mpr (fun c hc => by rw [(digit_char_facts (hv c hc)).2.2.1]; rfl)]]
  rw [show List.filter (fun c => !(isSpacePy c)) (u ++ v) = u ++ v from
    List.filter_eq_self.mpr (fun c hc => by rw [(digit_char_facts (hall c hc)).2.2.2.1]; rfl)]
  rw [show List.map replaceChar (u ++ v) = u ++ v from
    map_eq_self_of (fun c hc => (digit_char_facts (hall c hc)).2.1)]
  rw [show List.filter (fun c => isWordChar c || c == '-') (u ++ v) = u ++ v from
    List.filter_eq_self.mpr (fun c hc => by rw [(digit_char_facts (hall c hc)).2.2.2.2.1]; rfl)]
  exact stripChars_eq_self (fun c hc => (digit_char_facts (hall c hc)).2.2.2.2.2.2.2)

/-- Cleaning via `clean_text` is the identity on digit strings of admissible length. -/
theorem clean_text_digits {l : List Char} (h : l.all Char.isDigit = true)
    (h3 : 3 ≤ l.length) (h12 : l.length ≤ 12) : clean_text l = some l := by
  unfold clean_text
  have hne : l.isEmpty = false := by
    cases l with
    | nil => simp at h3
    | cons a as => rfl
  rw [hne, cleanStages_digits_id h]
  simp only [Bool.false_eq_true, if_false]
  have : (decide (l.length < 3) || decide (12 < l.length)) = false := by
    simp only [Bool.or_eq_false_iff, decide_eq_false_iff_not, not_lt]
    exact ⟨h3, h12⟩
  rw [this]
  simp

/-- A text without uppercase letters cannot match a pattern that requires a
non-empty letter block. -/
theorem segMatch_no_letters {ss : List Seg} {l : List Char}
    (hl : ∀ c ∈ l, isUpperLetter c = false)
    (hs : segMatch ss l = true) {n : ℕ} (hn : 1 ≤ n) (hmem : Seg.letters n ∈ ss) : False := by
  induction ss generalizing l with
  | nil => simp at hmem
  | cons s ss ih =>
    cases s with
    | letters m =>
      simp only [segMatch, Bool.and_eq_true, decide_eq_true_eq] at hs
      obtain ⟨⟨hlen, hall⟩, hrest⟩ := hs
      rcases List.mem_cons.mp hmem with heq | hmem'
      · injection heq with hnm
        subst hnm
        have hne : l ≠ [] := by
          intro he
          subst he
          simp at hlen
          omega
        obtain ⟨a, as, rfl⟩ := List.exists_cons_of_ne_nil hne
        rw [List.all_eq_true] at hall
        have ha : isUpperLetter a = true := by
          apply hall
          cases n with
          | zero => omega
          | succ k => simp [List.take_succ_cons]
        have := hl a (List.mem_cons_self a as)
        rw [ha] at this
        exact absurd this (by simp)
      · exact ih (fun c hc => hl c (List.drop_subset _ _ hc)) hrest hmem'
    | digitRun m =>
      simp only [segMatch, Bool.and_eq_true, decide_eq_true_eq] at hs
      obtain ⟨_, hrest⟩ := hs
      have hmem' : Seg.letters n ∈ ss := by
        rcases List.mem_cons.mp hmem with heq | h'
        · exact absurd heq (by simp)
        · exact h'
      exact ih (fun c hc => hl c (List.drop_subset _ _ hc)) hrest hmem'
    | hyphen =>
      have hmem' : Seg.letters n ∈ ss := by
        rcases List.mem_cons.mp hmem with heq | h'
        · exact absurd heq (by simp)
        · exact h'
      cases l with
      | nil => simp [segMatch] at hs
      | cons a rest =>
        simp only [segMatch, Bool.and_eq_true] at hs
        exact ih (fun c hc => hl c (List.mem_cons_of_mem a hc)) hs.2 hmem'

/-- A digit string matches some plate pattern exactly when it has length 7
(the `\d{7}` pattern); every other pattern demands a letter or a hyphen. -/
theorem matchesAny_digits {l : List Char} (hd : l.all Char.isDigit = true) :
    matchesAnyPattern l = true ↔ l.length = 7 := by
  have hd' := List.all_eq_true.mp hd
  have hnl : ∀ c ∈ l, isUpperLetter c = false := fun c hc =>
    (digit_char_facts (hd' c hc)).2.2.2.2.2.1
  constructor
  · intro hm
    unfold matchesAnyPattern at hm
    rw [List.any_eq_true] at hm
    obtain ⟨p, hp, hpm⟩ := hm
    have hp2 : p = [Seg.digitRun 7] ∨ p = [Seg.digitRun 3, Seg.hyphen, Seg.digitRun 4] := by
      fin_cases hp <;>
        first
          | (left; rfl)
          | (right; rfl)
          | exact (segMatch_no_letters hnl hpm (n := 1) (by norm_num) (by decide)).elim
          | exact (segMatch_no_letters hnl hpm (n := 2) (by norm_num) (by decide)).elim
          | exact (segMatch_no_letters hnl hpm (n := 3) (by norm_num) (by decide)).elim
          | exact (segMatch_no_letters hnl hpm (n := 4) (by norm_num) (by decide)).elim
    rcases hp2 with rfl | rfl
    · simp only [segMatch, Bool.and_eq_true, decide_eq_true_eq] at hpm
      obtain ⟨⟨h7, _⟩, hemp⟩ := hpm
      have hnil : l.drop 7 = [] := by
        cases hdr : l.drop 7 with
        | nil => rfl
        | cons a as => rw [hdr] at hemp; simp [List.isEmpty] at hemp
      have := List.drop_eq_nil_iff.mp hnil
      omega
    · exfalso
      simp only [segMatch, Bool.and_eq_true, decide_eq_true_eq] at hpm
      obtain ⟨⟨h3, _⟩, hrest⟩ := hpm
      cases hld : l.drop 3 with
      | nil => rw [hld] at hrest; simp at hrest
      | cons a as =>
        rw [hld] at hrest
        simp only [Bool.and_eq_true] at hrest
        have ha : a ∈ l := by
          have : a ∈ l.drop 3 := by rw [hld]; exact List.mem_cons_self a as
          exact List.drop_subset _ _ this
        have hadig := hd' a ha
        have ha' : a = '-' := by simpa using hrest.1
        subst ha'
        exact absurd hadig (by decide)
  · intro h7
    unfold matchesAnyPattern
    rw [List.any_eq_true]
    refine ⟨[Seg.digitRun 7], by decide, ?_⟩
    simp only [segMatch, Bool.and_eq_true, decide_eq_true_eq]
    refine ⟨⟨by omega, ?_⟩, ?_⟩
    · rw [List.all_eq_true]
      exact fun c hc => hd' c (List.take_subset _ _ hc)
    · have : l.drop 7 = [] := List.drop_eq_nil_iff.mpr (by omega)
      rw [this]
      rfl

/-- A digit string with one interior hyphen matches some plate pattern exactly
when it has shape `\d{3}-\d{4}`. -/
theorem matchesAny_digits_hyphen {u v : List Char}
    (hu : u.all Char.isDigit = true) (hv : v.all Char.isDigit = true) :
    matchesAnyPattern (u ++ '-' :: v) = true ↔ (u.length = 3 ∧ v.length = 4) := by
  have hu' := List.all_eq_true.mp hu
  have hv' := List.all_eq_true.mp hv
  have hnl : ∀ c ∈ u ++ '-' :: v, isUpperLetter c = false := by
    intro c hc
    rcases List.mem_append.mp hc with hcu | hcv
    · exact (digit_char_facts (hu' c hcu)).2.2.2.2.2.1
    · rcases List.mem_cons.mp hcv with rfl | hcv'
      · decide
      · exact (digit_char_facts (hv' c hcv')).2.2.2.2.2.1
  constructor
  · intro hm
    unfold matchesAnyPattern at hm
    rw [List.any_eq_true] at hm
    obtain ⟨p, hp, hpm⟩ := hm
    have hp2 : p = [Seg.digitRun 7] ∨ p = [Seg.digitRun 3, Seg.hyphen, Seg.digitRun 4] := by
      fin_cases hp <;>
        first
          | (left; rfl)
          | (right; rfl)
          | exact (segMatch_no_letters hnl hpm (n := 1) (by norm_num) (by decide)).elim
          | exact (segMatch_no_letters hnl hpm (n := 2) (by norm_num) (by decide)).elim
          | exact (segMatch_no_letters hnl hpm (n := 3) (by norm_num) (by decide)).elim
          | exact (segMatch_no_letters hnl hpm (n := 4) (by norm_num) (by decide)).elim
    rcases hp2 with rfl | rfl
    · exfalso
      simp only [segMatch, Bool.and_eq_true, decide_eq_true_eq] at hpm
      obtain ⟨⟨h7, hall⟩, hemp⟩ := hpm
      have hnil : (u ++ '-' :: v).drop 7 = [] := by
        cases hdr : (u ++ '-' :: v).drop 7 with
        | nil => rfl
        | cons a as => rw [hdr] at hemp; simp [List.isEmpty] at hemp
      have hlen := List.drop_eq_nil_iff.mp hnil
      have htake : (u ++ '-' :: v).take 7 = u ++ '-' :: v :=
        List.take_of_length_le hlen
      rw [htake, List.all_eq_true] at hall
      have := hall '-' (by
        rw [List.mem_append]
        exact Or.inr (List.mem_cons_self _ _))
      exact absurd this (by decide)
    · simp only [segMatch, Bool.and_eq_true, decide_eq_true_eq] at hpm
      obtain ⟨⟨h3, hall3⟩, hrest⟩ := hpm
      have hu3 : u.length = 3 := by
        rcases Nat.lt_trichotomy u.length 3 with hlt | heq | hgt
        · exfalso
          have htk : (u ++ '-' :: v).take 3 = u ++ ('-' :: v).take (3 - u.length) := by
            rw [List.take_append_eq_append_take, List.take_of_length_le (by omega)]
          have hmem : '-' ∈ (u ++ '-' :: v).take 3 := by
            rw [htk, List.mem_append]
            right
            cases h3u : 3 - u.length with
            | zero => omega
            | succ k =>
              rw [List.take_succ_cons]
              exact List.mem_cons_self _ _
          rw [List.all_eq_true] at hall3
          exact absurd (hall3 '-' hmem) (by decide)
        · exact heq
        · exfalso
          have hdr : (u ++ '-' :: v).drop 3 = u.drop 3 ++ '-' :: v := by
            rw [List.drop_append_eq_append_drop,
              show 3 - u.length = 0 by omega, List.drop_zero]
          rw [hdr] at hrest
          cases hdu : u.drop 3 with
          | nil =>
            have := List.drop_eq_nil_iff.mp hdu
            omega
          | cons a as =>
            rw [hdu] at hrest
            simp only [List.cons_append, Bool.and_eq_true] at hrest
            have ha : a ∈ u := by
              have : a ∈ u.drop 3 := by rw [hdu]; exact List.mem_cons_self a as
              exact List.drop_subset _ _ this
            have ha' : a = '-' := by simpa using hrest.1
            subst ha'
            exact absurd (hu' _ ha) (by decide)
      refine ⟨hu3, ?_⟩
      have hdr : (u ++ '-' :: v).drop 3 = '-' :: v := by
        rw [List.drop_append_eq_append_drop, List.drop_eq_nil_iff.mpr (by omega),
          show 3 - u.length = 0 by omega, List.drop_zero, List.nil_append]
      rw [hdr] at hrest
      simp only [Bool.and_eq_true, decide_eq_true_eq] at hrest
      obtain ⟨_, ⟨h4, _⟩, hemp⟩ := hrest
      have hnil : v.drop 4 = [] := by
        cases hdr4 : v.drop 4 with
        | nil => rfl
        | cons a as => rw [hdr4] at hemp; simp [List.isEmpty] at hemp
      have := List.drop_eq_nil_iff.mp hnil
      omega
  · rintro ⟨hu3, hv4⟩
    unfold matchesAnyPattern
    rw [List.any_eq_true]
    refine ⟨[Seg.digitRun 3, Seg.hyphen, Seg.digitRun 4], by decide, ?_⟩
    simp only [segMatch, Bool.and_eq_true, decide_eq_true_eq]
    have hlen : (u ++ '-' :: v).length = 8 := by
      rw [List.length_append, List.length_cons]
      omega
    have htk : (u ++ '-' :: v).take 3 = u := by
      rw [← hu3, List.take_left]
    have hdr : (u ++ '-' :: v).drop 3 = '-' :: v := by
      rw [← hu3, List.drop_left]
    refine ⟨⟨by omega, ?_⟩, ?_⟩
    · rw [htk]
      exact hu
    · rw [hdr]
      have h2 : segMatch [Seg.digitRun 4] v = true := by
        simp only [segMatch, Bool.and_eq_true, decide_eq_true_eq]
        refine ⟨⟨by omega, ?_⟩, ?_⟩
        · rw [List.take_of_length_le (by omega)]
          exact hv
        · rw [List.drop_eq_nil_iff.mpr (by omega)]
          rfl
      show (('-' == '-') && segMatch [Seg.digitRun 4] v) = true
      rw [h2]
      rfl

theorem replaceSubFuel_mem {p : Char} {ps rep : List Char} {c : Char} :
    ∀ (fuel : ℕ) {l : List Char}, c ∈ replaceSubFuel p ps rep fuel l → c ∈ rep ∨ c ∈ l := by
  intro fuel
  induction fuel with
  | zero =>
    intro l h
    cases l with
    | nil => rw [replaceSubFuel] at h; simp at h
    | cons a as => exact Or.inr h
  | succ n ih =>
    intro l h
    cases l with
    | nil => rw [replaceSubFuel] at h; simp at h
    | cons a as =>
      rw [replaceSubFuel] at h
      by_cases hpre : (p :: ps).isPrefixOf (a :: as) = true
      · rw [if_pos hpre] at h
        rcases List.mem_append.mp h with h1 | h2
        · exact Or.inl h1
        · rcases ih h2 with h3 | h4
          · exact Or.inl h3
          · exact Or.inr (List.mem_cons_of_mem a (List.drop_subset _ _ h4))
      · rw [if_neg hpre] at h
        rcases List.mem_cons.mp h with rfl | h2
        · exact Or.inr (List.mem_cons_self _ _)
        · rcases ih h2 with h3 | h4
          · exact Or.inl h3
          · exact Or.inr (List.mem_cons_of_mem a h4)

theorem replaceSub_mem {p : Char} {ps rep : List Char} {c : Char} {l : List Char}
    (h : c ∈ replaceSub p ps rep l) : c ∈ rep ∨ c ∈ l :=
  replaceSubFuel_mem l.length h

theorem findSome?_exists {α β : Type} {f : α → Option β} {l : List α} {b : β}
    (h : l.findSome? f = some b) : ∃ a ∈ l, f a = some b := by
  induction l with
  | nil => simp [List.findSome?] at h
  | cons x xs ih =>
    rw [List.findSome?] at h
    cases hf : f x with
    | some y =>
      rw [hf] at h
      injection h with h
      subst h
      exact ⟨x, List.mem_cons_self x xs, hf⟩
    | none =>
      rw [hf] at h
      obtain ⟨a, ha, hfa⟩ := ih h
      exact ⟨a, List.mem_cons_of_mem x ha, hfa⟩

theorem find?_eq_some_split {α : Type} {p : α → Bool} {l : List α} {a : α}
    (h : l.find? p = some a) :
    p a = true ∧ ∃ l₁ l₂, l = l₁ ++ a :: l₂ ∧ ∀ x ∈ l₁, p x = false := by
  induction l with
  | nil => simp at h
  | cons b bs ih =>
    cases hb : p b with
    | true =>
      rw [List.find?_cons_of_pos _ hb] at h
      injection h with h
      subst h
      exact ⟨hb, [], bs, rfl, by intro x hx; simp at hx⟩
    | false =>
      rw [List.find?_cons_of_neg _ (by simp [hb])] at h
      obtain ⟨hpa, l₁, l₂, rfl, hall⟩ := ih h
      refine ⟨hpa, b :: l₁, l₂, rfl, ?_⟩
      intro x hx
      rcases List.mem_cons.mp hx with rfl | hx'
      · exact hb
      · exact hall x hx'

/-- On an all-digit input that matches no pattern, `try_enhanced_ocr_corrections`
never returns a text containing a hyphen: the substitution pairs introduce no
hyphen, hyphen insertion would force the `\d{3}-\d{4}` shape (impossible when
the digits do not number 7), there is no hyphen to remove, and deletion only
keeps digits. -/
theorem corrections_no_hyphen {t v : List Char}
    (hd : t.all Char.isDigit = true)
    (hnm : matchesAnyPattern t = false)
    (hc : try_enhanced_ocr_corrections t = some v) :
    v.contains '-' = false := by
  have hdm := List.all_eq_true.mp hd
  unfold try_enhanced_ocr_corrections at hc
  by_cases h5 : t.length < 5
  · rw [if_pos h5] at hc
    exact absurd hc (by simp)
  rw [if_neg h5] at hc
  cases hsub : correctionPairs.findSome? (fun pr =>
      let c := applyReplace pr.1 pr.2 t
      if matchesAnyPattern c then some c else none) with
  | some r =>
    rw [hsub] at hc
    injection hc with hc
    subst hc
    obtain ⟨pr, hpr, hfr⟩ := findSome?_exists hsub
    simp only at hfr
    by_cases hm : matchesAnyPattern (applyReplace pr.1 pr.2 t) = true
    · rw [if_pos hm] at hfr
      injection hfr with hfr
      subst hfr
      by_cases hcon : (applyReplace pr.1 pr.2 t).contains '-' = true
      · exfalso
        have hmem : '-' ∈ applyReplace pr.1 pr.2 t := List.elem_iff.mp hcon
        have hrep : ∀ q ∈ correctionPairs, ('-' ∈ q.2 → False) ∧ q.1 ≠ [] := by decide
        unfold applyReplace at hmem
        cases hq : pr.1 with
        | nil => exact (hrep pr hpr).2 hq
        | cons p ps =>
          rw [hq] at hmem
          rcases replaceSub_mem hmem with h1 | h2
          · exact (hrep pr hpr).1 h1
          · exact absurd (hdm '-' h2) (by decide)
      · simpa using hcon
    · rw [if_neg hm] at hfr
      exact absurd hfr (by simp)
  | none =>
    rw [hsub] at hc
    have hguard : t.contains '-' = false := all_digits_no_hyphen hd
    have hins : (if !(t.contains '-') && decide (6 ≤ t.length) then
        (List.range' 2 (min 6 (t.length - 2) - 2)).findSome? (fun i =>
          let c := t.take i ++ '-' :: t.drop i
          if matchesAnyPattern c then some c else none)
        else none) = none := by
      by_cases hcond : (!(t.contains '-') && decide (6 ≤ t.length)) = true
      · rw [if_pos hcond]
        cases hfs : (List.range' 2 (min 6 (t.length - 2) - 2)).findSome? (fun i =>
            let c := t.take i ++ '-' :: t.drop i
            if matchesAnyPattern c then some c else none) with
        | none => rfl
        | some r =>
          exfalso
          obtain ⟨i, _, hgr⟩ := findSome?_exists hfs
          simp only at hgr
          by_cases hm : matchesAnyPattern (t.take i ++ '-' :: t.drop i) = true
          · have htk : (t.take i).all Char.isDigit = true := by
              rw [List.all_eq_true]
              exact fun c hcm => hdm c (List.take_subset _ _ hcm)
            have hdr : (t.drop i).all Char.isDigit = true := by
              rw [List.all_eq_true]
              exact fun c hcm => hdm c (List.drop_subset _ _ hcm)
            obtain ⟨h3, h4⟩ := (matchesAny_digits_hyphen htk hdr).mp hm
            have hlen : t.length = 7 := by
              rw [List.length_take] at h3
              rw [List.length_drop] at h4
              omega
            have := (matchesAny_digits hd).mpr hlen
            rw [hnm] at this
            exact absurd this (by simp)
          · rw [if_neg hm] at hgr
            exact absurd hgr (by simp)
      · rw [if_neg hcond]
    rw [hins] at hc
    have hrem : (if t.contains '-' then
        (let c := t.filter (fun ch => !(ch == '-'))
         if matchesAnyPattern c then some c else none)
        else none) = none := by
      have hng : ¬ (t.contains '-' = true) := by
        rw [hguard]
        simp
      rw [if_neg hng]
    rw [hrem] at hc
    have hc' : (if decide (6 ≤ t.length) = true then
        (List.range t.length).findSome? (fun i =>
          let c := t.eraseIdx i
          if matchesAnyPattern c then some c else none)
        else none) = some v := hc
    by_cases h6 : (decide (6 ≤ t.length) = true)
    · rw [if_pos h6] at hc'
      obtain ⟨i, _, hgr⟩ := findSome?_exists hc'
      simp only at hgr
      by_cases hm : matchesAnyPattern (t.eraseIdx i) = true
      · rw [if_pos hm] at hgr
        injection hgr with hgr
        subst hgr
        by_cases hcon : (t.eraseIdx i).contains '-' = true
        · exfalso
          have hmem : '-' ∈ t.eraseIdx i := List.elem_iff.mp hcon
          have hmem' := (List.eraseIdx_sublist t i).mem hmem
          exact absurd (hdm '-' hmem') (by decide)
        · simpa using hcon
      · rw [if_neg hm] at hgr
        exact absurd hgr (by simp)
    · rw [if_neg h6] at hc'
      exact absurd hc' (by simp)

theorem pyIsAlpha_digits_false {l : List Char} (hd : l.all Char.isDigit = true)
    (hne : l ≠ []) : pyIsAlpha l = false := by
  obtain ⟨a, as, rfl⟩ := List.exists_cons_of_ne_nil hne
  have hd' := List.all_eq_true.mp hd
  unfold pyIsAlpha
  have ha : Char.isAlpha a = false :=
    (digit_char_facts (hd' a (List.mem_cons_self a as))).2.2.2.2.2.2.1
  rw [List.all_cons, ha]
  simp

theorem take_ne_nil_of_pos {l : List Char} {n : ℕ} (hn : 1 ≤ n) (hl : l ≠ []) :
    l.take n ≠ [] := by
  obtain ⟨a, as, rfl⟩ := List.exists_cons_of_ne_nil hl
  cases n with
  | zero => omega
  | succ k => simp [List.take_succ_cons]

theorem length_ne_nil {l : List Char} (h : 1 ≤ l.length) : l ≠ [] := by
  intro he
  subst he
  simp at h

/-- On a 7-digit string the hyphen formatter inserts the hyphen after the
third digit (the `text[:3].isdigit()` branch). -/
theorem format_digits7 {t : List Char} (hd : t.all Char.isDigit = true)
    (h7 : t.length = 7) :
    format_plate_with_hyphen t = some (t.take 3 ++ '-' :: t.drop 3) := by
  have hd' := List.all_eq_true.mp hd
  have hne : t ≠ [] := length_ne_nil (by omega)
  have htk2 : (t.take 2).all Char.isDigit = true := by
    rw [List.all_eq_true]
    exact fun c hc => hd' c (List.take_subset _ _ hc)
  have htk3 : (t.take 3).all Char.isDigit = true := by
    rw [List.all_eq_true]
    exact fun c hc => hd' c (List.take_subset _ _ hc)
  unfold format_plate_with_hyphen
  rw [if_neg (by omega : ¬ t.length < 4)]
  rw [show (pyIsAlpha (t.take 2) && decide (6 ≤ t.length)) = false by
    rw [pyIsAlpha_digits_false htk2 (take_ne_nil_of_pos (by norm_num) hne)]
    rfl]
  rw [show (pyIsAlpha (t.take 3) && decide (7 ≤ t.length)) = false by
    rw [pyIsAlpha_digits_false htk3 (take_ne_nil_of_pos (by norm_num) hne)]
    rfl]
  rw [show (pyIsDigitStr (t.take 3) && decide (7 ≤ t.length)) = true by
    unfold pyIsDigitStr
    rw [htk3]
    have : (t.take 3).isEmpty = false := by
      cases htt : t.take 3 with
      | nil => exact absurd htt (take_ne_nil_of_pos (by norm_num) hne)
      | cons a as => rfl
    rw [this]
    simp only [Bool.not_false, Bool.true_and, Bool.and_eq_true, decide_eq_true_eq]
    omega]
  simp

/-- Reduction of `validate_plate` once the cleaning result is known. -/
theorem validate_plate_of_clean {l t : List Char} (hne : l.isEmpty = false)
    (hct : clean_text l = some t) :
    validate_plate l = (if t.length < 3 then none
      else if matchesAnyPattern t then
        if !(t.contains '-') then
          match format_plate_with_hyphen t with
          | some f => some f
          | none => some t
        else some t
      else try_enhanced_ocr_corrections t) := by
  unfold validate_plate
  rw [hne]
  simp only [Bool.false_eq_true, if_false]
  rw [hct]

/-- A canonical 7-digit text is validated through the exact-match path and
formatted with a hyphen. -/
theorem validate_digits7 {t : List Char} (hd : t.all Char.isDigit = true)
    (h7 : t.length = 7) :
    validate_plate t = some (t.take 3 ++ '-' :: t.drop 3) := by
  have hne : t.isEmpty = false := by
    cases t with
    | nil => simp at h7
    | cons a as => rfl
  rw [validate_plate_of_clean hne (clean_text_digits hd (by omega) (by omega))]
  rw [if_neg (by omega : ¬ t.length < 3)]
  rw [if_pos ((matchesAny_digits hd).mpr h7)]
  rw [all_digits_no_hyphen hd]
  simp only [Bool.not_false, if_true]
  rw [format_digits7 hd h7]

/-- The formatted 7-digit text re-validates to itself: cleaning drops the
hyphen back out, the 7 digits match `\d{7}`, and formatting re-inserts the
hyphen in the same place. -/
theorem validate_formatted {t : List Char} (hd : t.all Char.isDigit = true)
    (h7 : t.length = 7) :
    validate_plate (t.take 3 ++ '-' :: t.drop 3) = some (t.take 3 ++ '-' :: t.drop 3) := by
  have hd' := List.all_eq_true.mp hd
  have htk : (t.take 3).all Char.isDigit = true := by
    rw [List.all_eq_true]
    exact fun c hc => hd' c (List.take_subset _ _ hc)
  have hdr : (t.drop 3).all Char.isDigit = true := by
    rw [List.all_eq_true]
    exact fun c hc => hd' c (List.drop_subset _ _ hc)
  have hne : (t.take 3 ++ '-' :: t.drop 3).isEmpty = false := by
    cases htt : t.take 3 with
    | nil => rfl
    | cons a as => rfl
  have hclean : clean_text (t.take 3 ++ '-' :: t.drop 3) = some t := by
    unfold clean_text
    rw [hne]
    simp only [Bool.false_eq_true, if_false]
    rw [cleanStages_digits_hyphen htk hdr, List.take_append_drop]
    rw [show (decide (t.length < 3) || decide (12 < t.length)) = false by
      simp only [Bool.or_eq_false_iff, decide_eq_false_iff_not, not_lt]
      omega]
    simp
  rw [validate_plate_of_clean hne hclean]
  rw [if_neg (by omega : ¬ t.length < 3)]
  rw [if_pos ((matchesAny_digits hd).mpr h7)]
  rw [all_digits_no_hyphen hd]
  simp only [Bool.not_false, if_true]
  rw [format_digits7 hd h7]

/-- Soundness of the voting loop: a returned record satisfies the acceptance
criteria, it belongs to the first cycle whose post-update sweep finds an
acceptable record, and within that sweep every record seen earlier (first-seen
order) fails the criteria. -/
theorem runCycles_sound :
    ∀ (cycles : List (List (String × ℚ))) (recs : List (String × CandRec))
      {t : String} {r : CandRec},
      runCycles cycles recs = some (t, r) →
      acceptsRecord r = true ∧
      ∃ pre c rest l₁ l₂, cycles = pre ++ c :: rest ∧ c ≠ [] ∧
        List.foldl updateCycle recs (pre ++ [c]) = l₁ ++ (t, r) :: l₂ ∧
        (∀ q ∈ l₁, acceptsRecord q.2 = false) ∧
        (∀ p₁ c₁ p₂, pre = p₁ ++ c₁ :: p₂ → c₁ ≠ [] →
          findAccept (List.foldl updateCycle recs (p₁ ++ [c₁])) = none) := by
  intro cycles
  induction cycles with
  | nil => intro recs t r h; exact absurd h (by simp [runCycles])
  | cons c cs ih =>
    intro recs t r h
    rw [runCycles] at h
    by_cases hce : c.isEmpty = true
    · rw [if_pos hce] at h
      have hcnil : c = [] := List.isEmpty_iff.mp hce
      obtain ⟨hacc, pre', c', rest', l₁, l₂, hcyc, hcne, hfold, hl1, hearly⟩ := ih recs h
      refine ⟨hacc, c :: pre', c', rest', l₁, l₂, by rw [hcyc]; rfl, hcne, ?_, hl1, ?_⟩
      · subst hcnil
        simpa using hfold
      · intro p₁ c₁ p₂ hsplit hc₁
        cases p₁ with
        | nil =>
          simp only [List.nil_append, List.cons.injEq] at hsplit
          exact absurd (hsplit.1 ▸ hcnil) hc₁
        | cons q qs =>
          simp only [List.cons_append, List.cons.injEq] at hsplit
          obtain ⟨rfl, hsplit'⟩ := hsplit
          have := hearly qs c₁ p₂ hsplit' hc₁
          subst hcnil
          simpa using this
    · rw [if_neg hce] at h
      cases hfa : findAccept (updateCycle recs c) with
      | some q =>
        rw [hfa] at h
        injection h with h
        obtain ⟨tq, rq⟩ := q
        injection h with h1 h2
        subst h1
        subst h2
        obtain ⟨hp, l₁, l₂, hsplit, hall⟩ := find?_eq_some_split hfa
        refine ⟨hp, [], c, cs, l₁, l₂, rfl, ?_, ?_, hall, ?_⟩
        · intro hc
          rw [hc] at hce
          simp at hce
        · simpa using hsplit
        · intro p₁ c₁ p₂ hsplit' _
          exact absurd hsplit' (by simp)
      | none =>
        rw [hfa] at h
        obtain ⟨hacc, pre', c', rest', l₁, l₂, hcyc, hcne, hfold, hl1, hearly⟩ :=
          ih (updateCycle recs c) h
        refine ⟨hacc, c :: pre', c', rest', l₁, l₂, by rw [hcyc]; rfl, hcne, ?_, hl1, ?_⟩
        · simpa using hfold
        · intro p₁ c₁ p₂ hsplit hc₁
          cases p₁ with
          | nil =>
            simp only [List.nil_append, List.cons.injEq] at hsplit
            obtain ⟨rfl, _⟩ := hsplit
            simpa using hfa
          | cons q qs =>
            simp only [List.cons_append, List.cons.injEq] at hsplit
            obtain ⟨rfl, hsplit'⟩ := hsplit
            have := hearly qs c₁ p₂ hsplit' hc₁
            simpa using this

/-- The deduplication loop keeps, for each canonical text, exactly the first
raw detection in processing order that cleans to that text. -/
theorem dedup_mem_split :
    ∀ {rs : List (List Char × ℚ)} {seen : List (List Char)} {t : List Char} {p : ℚ},
      (t, p) ∈ dedup_detections rs seen →
      t ∉ seen ∧ 3 ≤ t.length ∧
      ∃ l₁ r l₂, rs = l₁ ++ r :: l₂ ∧ clean_text r.1 = some t ∧ r.2 = p ∧
        ∀ r' ∈ l₁, clean_text r'.1 ≠ some t := by
  intro rs
  induction rs with
  | nil => intro seen t p h; exact absurd h (by simp [dedup_detections])
  | cons r₀ rs ih =>
    intro seen t p h
    obtain ⟨t₀, p₀⟩ := r₀
    rw [dedup_detections] at h
    cases hct : clean_text t₀ with
    | none =>
      rw [hct] at h
      obtain ⟨hns, h3, l₁, r, l₂, heq, hcr, hpr, hall⟩ := ih h
      refine ⟨hns, h3, (t₀, p₀) :: l₁, r, l₂, by rw [heq]; rfl, hcr, hpr, ?_⟩
      intro r' hr'
      rcases List.mem_cons.mp hr' with rfl | hr''
      · rw [hct]
        simp
      · exact hall r' hr''
    | some cc =>
      rw [hct] at h
      have h' : (t, p) ∈ (if (!(seen.contains cc) && decide (3 ≤ cc.length)) = true then
          (cc, p₀) :: dedup_detections rs (cc :: seen)
        else dedup_detections rs seen) := h
      by_cases hcond : (!(seen.contains cc) && decide (3 ≤ cc.length)) = true
      · rw [if_pos hcond] at h'
        simp only [Bool.and_eq_true, Bool.not_eq_true', decide_eq_true_eq] at hcond
        obtain ⟨hfresh, h3c⟩ := hcond
        rcases List.mem_cons.mp h' with heq | hmem
        · injection heq with h1 h2
          subst h1
          subst h2
          refine ⟨?_, h3c, [], (t₀, p), rs, rfl, hct, rfl, by simp⟩
          intro hmem'
          have hcontains : seen.contains t = true := List.elem_iff.mpr hmem'
          rw [hcontains] at hfresh
          simp at hfresh
        · obtain ⟨hns, h3, l₁, r, l₂, heq, hcr, hpr, hall⟩ := ih hmem
          have htcc : t ≠ cc := by
            intro he
            exact hns (he ▸ List.mem_cons_self cc seen)
          refine ⟨fun hmem' => hns (List.mem_cons_of_mem cc hmem'), h3,
            (t₀, p₀) :: l₁, r, l₂, by rw [heq]; rfl, hcr, hpr, ?_⟩
          intro r' hr'
          rcases List.mem_cons.mp hr' with rfl | hr''
          · rw [hct]
            intro he
            injection he with he
            exact htcc he.symm
          · exact hall r' hr''
      · rw [if_neg hcond] at h'
        obtain ⟨hns, h3, l₁, r, l₂, heq, hcr, hpr, hall⟩ := ih h'
        have htcc : t ≠ cc := by
          intro he
          subst he
          apply hcond
          simp only [Bool.and_eq_true, Bool.not_eq_true', decide_eq_true_eq]
          constructor
          · by_cases hsc : seen.contains t = true
            · exact absurd (List.elem_iff.mp hsc) hns
            · simpa using hsc
          · exact h3
        refine ⟨hns, h3, (t₀, p₀) :: l₁, r, l₂, by rw [heq]; rfl, hcr, hpr, ?_⟩
        intro r' hr'
        rcases List.mem_cons.mp hr' with rfl | hr''
        · rw [hct]
          intro he
          injection he with he
          exact htcc he.symm
        · exact hall r' hr''

theorem recsAt_odd {cycles : ℕ → List (String × ℚ)} {j : ℕ}
    (h : (j + 1) % 2 ≠ 0) : recsAt cycles (j + 1) = recsAt cycles j := by
  rw [recsAt]
  rw [show ((j + 1) % 2 == 0) = false by
    cases hm : (j + 1) % 2 with
    | zero => exact absurd hm h
    | succ k => rfl]
  simp

theorem recsAt_even {cycles : ℕ → List (String × ℚ)} {j : ℕ}
    (h : (j + 1) % 2 = 0) :
    recsAt cycles (j + 1) = updateCycle (recsAt cycles j) (cycles (j + 1)) := by
  rw [recsAt, h]
  rfl

theorem updateCycle_nil (recs : List (String × CandRec)) : updateCycle recs [] = recs := rfl

/-- Under the discrete clock, the scan loop with no acceptable record always
exits through the timeout guard, with elapsed time in `[timeout, timeout + frameDelta)`. -/
theorem scanGo_timeout {timeout : ℚ} {cycles : ℕ → List (String × ℚ)}
    (hno : ∀ k, findAccept (recsAt cycles k) = none) (ht0 : 0 ≤ timeout) :
    ∀ (j : ℕ) (recs : List (String × CandRec)), recs = recsAt cycles j →
      (j = 0 ∨ ((j : ℚ) - 1) * frameDelta < timeout) →
      (scanGo timeout cycles j recs).1 = none ∧
      timeout ≤ (scanGo timeout cycles j recs).2 ∧
      (scanGo timeout cycles j recs).2 < timeout + frameDelta := by
  intro j recs
  induction j, recs using scanGo.induct timeout cycles with
  | case1 j recs hlt hodd ih =>
    intro hrecs _
    rw [scanGo, dif_pos hlt, if_pos hodd]
    exact ih (by rw [hrecs, recsAt_odd hodd]) (Or.inr (by push_cast; linarith))
  | case2 j recs hlt hodd hemp ih =>
    intro hrecs _
    rw [scanGo, dif_pos hlt, if_neg hodd, if_pos hemp]
    have heven : (j + 1) % 2 = 0 := by omega
    have hcnil : cycles (j + 1) = [] := List.isEmpty_iff.mp hemp
    refine ih ?_ (Or.inr (by push_cast; linarith))
    rw [hrecs, recsAt_even heven, hcnil, updateCycle_nil]
  | case3 j recs hlt hodd hemp r hfa =>
    intro hrecs _
    exfalso
    have heven : (j + 1) % 2 = 0 := by omega
    have := hno (j + 1)
    rw [recsAt_even heven, ← hrecs] at this
    rw [this] at hfa
    exact absurd hfa (by simp)
  | case4 j recs hlt hodd hemp hfa ih =>
    intro hrecs _
    rw [scanGo, dif_pos hlt, if_neg hodd, if_neg hemp, hfa]
    have heven : (j + 1) % 2 = 0 := by omega
    refine ih ?_ (Or.inr (by push_cast; linarith))
    rw [hrecs, recsAt_even heven]
  | case5 j recs hge =>
    intro _ hprev
    rw [scanGo, dif_neg hge]
    have hd : (0 : ℚ) < frameDelta := by norm_num [frameDelta]
    refine ⟨rfl, le_of_not_lt hge, ?_⟩
    show (j : ℚ) * frameDelta < timeout + frameDelta
    rcases hprev with rfl | hlt
    · push_cast
      linarith
    · have heq : (j : ℚ) * frameDelta = ((j : ℚ) - 1) * frameDelta + frameDelta := by ring
      rw [heq]
      linarith

/-- Claim C6: for every (non-negative) timeout, if no tracked candidate ever
meets an acceptance bar, `scan_until_plate` terminates with no plate — the
model's `(none, _)` stands for the code's `(None, None)` — after approximately
`timeout` seconds of modelled wall-clock time (within one frame interval
above the timeout), never hanging indefinitely. -/
theorem c6_scan_timeout {timeout : ℚ} {cycles : ℕ → List (String × ℚ)}
    (hno : ∀ k, findAccept (recsAt cycles k) = none) (ht0 : 0 ≤ timeout) :
    (scan_until_plate timeout cycles).1 = none ∧
    timeout ≤ (scan_until_plate timeout cycles).2 ∧
    (scan_until_plate timeout cycles).2 < timeout + frameDelta := by
  exact scanGo_timeout hno ht0 0 [] rfl (Or.inl rfl)

theorem recsAt_const_nil (k : ℕ) : recsAt (fun _ => []) k = [] := by
  induction k with
  | zero => rfl
  | succ n ih =>
    rw [recsAt]
    by_cases h : ((n + 1) % 2 == 0) = true
    · rw [if_pos h, ih]
      rfl
    · rw [if_neg h]
      exact ih

/-! ## The claims -/

/-- Claim C8: `clean_text` returns `none` whenever the length of the cleaned
text falls below 3 or above 12 characters. -/
theorem c8_clean_text_length_reject (l : List Char)
    (h : (cleanStages l).length < 3 ∨ 12 < (cleanStages l).length) :
    clean_text l = none := by
  unfold clean_text
  by_cases hemp : l.isEmpty = true
  · rw [if_pos hemp]
  · rw [if_neg hemp]
    have hc : ((cleanStages l).length < 3 || 12 < (cleanStages l).length) = true := by
      rcases h with h | h <;> simp [h]
    rw [if_pos hc]

theorem c8_length_witness :
    (cleanStages ['A', 'B']).length < 3 ∧ clean_text ['A', 'B'] = none :=
  ⟨by decide, c8_clean_text_length_reject ['A', 'B'] (Or.inl (by decide))⟩

/-- Claim C9: every canonical text produced by `clean_text` consists only of
the digits 0–9 — the replacement table maps every letter to a digit and the
noise list removes every hyphen, so no letter or hyphen reaches the
validator. -/
theorem c9_clean_text_digits_only (l t : List Char) (h : clean_text l = some t) :
    t.all Char.isDigit = true :=
  clean_text_all_digits h

theorem c9_digits_witness :
    clean_text ['A', 'B', 'C', '-', '1', '2', '3'] = some ['4', '8', '0', '1', '2', '3'] ∧
    (['4', '8', '0', '1', '2', '3'] : List Char).all Char.isDigit = true :=
  ⟨by decide, c9_clean_text_digits_only ['A', 'B', 'C', '-', '1', '2', '3']
    ['4', '8', '0', '1', '2', '3'] (by decide)⟩

/-- Claim C2 counterexample: the noise-character list contains the hyphen, so
an interior hyphen is removed — cleaning the text `12-345` yields `12345`, in
which no hyphen is present. -/
theorem c2_interior_hyphen_counterexample :
    clean_text ['1', '2', '-', '3', '4', '5'] = some ['1', '2', '3', '4', '5'] ∧
    ('-' ∈ (['1', '2', '3', '4', '5'] : List Char) → False) := by
  constructor
  · decide
  · decide

/-- Claim C2 (amended): the noise-stripping step removes every hyphen,
interior ones included, so a canonical text never contains a hyphen. -/
theorem c2_no_hyphen_in_canonical (l t : List Char) (h : clean_text l = some t) :
    t.contains '-' = false :=
  all_digits_no_hyphen (clean_text_all_digits h)

theorem c2_no_hyphen_witness :
    clean_text ['9', '9', '-', '1', '1', '1'] = some ['9', '9', '1', '1', '1'] ∧
    (['9', '9', '1', '1', '1'] : List Char).contains '-' = false :=
  ⟨by decide, c2_no_hyphen_in_canonical ['9', '9', '-', '1', '1', '1']
    ['9', '9', '1', '1', '1'] (by decide)⟩

/-- Claim C1 counterexample: on the raw OCR text `"AB C-l23"` normalization
does not yield `"ABC-123"` and validation does not accept `"ABC-123"` — the
char-replacement table digitizes the letters and the noise list removes the
hyphen. -/
theorem c1_end_to_end_counterexample :
    ¬ clean_text ['A', 'B', ' ', 'C', '-', 'l', '2', '3'] =
        some ['A', 'B', 'C', '-', '1', '2', '3'] ∧
    ¬ validate_plate ['A', 'B', ' ', 'C', '-', 'l', '2', '3'] =
        some ['A', 'B', 'C', '-', '1', '2', '3'] := by
  constructor
  · decide
  · decide

/-- Claim C1 (amended): on `"AB C-l23"`, `clean_text` yields `"480123"`
(hyphen stripped as noise, whitespace removed, every letter replaced by a
digit), and `validate_plate` then returns `"A80123"` via the enhanced
correction 4→A, matching the 1–2 letters + 5 digits pattern. -/
theorem c1_end_to_end_actual :
    clean_text ['A', 'B', ' ', 'C', '-', 'l', '2', '3'] =
      some ['4', '8', '0', '1', '2', '3'] ∧
    validate_plate ['A', 'B', ' ', 'C', '-', 'l', '2', '3'] =
      some ['A', '8', '0', '1', '2', '3'] := by
  constructor
  · decide
  · decide

/-- Claim C3 counterexample: the canonical text `"1234567"` exactly matches
the `\d{7}` grammar pattern, yet `validate_plate` returns it reformatted as
`"123-4567"`, not unchanged. -/
theorem c3_exact_match_counterexample :
    clean_text ['1', '2', '3', '4', '5', '6', '7'] = some ['1', '2', '3', '4', '5', '6', '7'] ∧
    matchesAnyPattern ['1', '2', '3', '4', '5', '6', '7'] = true ∧
    validate_plate ['1', '2', '3', '4', '5', '6', '7'] =
      some ['1', '2', '3', '-', '4', '5', '6', '7'] ∧
    ¬ validate_plate ['1', '2', '3', '4', '5', '6', '7'] =
        some ['1', '2', '3', '4', '5', '6', '7'] := by
  refine ⟨by decide, by decide, by decide, by decide⟩

/-- Claim C3 (amended): a canonical text that exactly matches a grammar
pattern is necessarily a 7-digit string, and `validate_plate` returns it with
a hyphen inserted after the third digit — reformatted, never unchanged. -/
theorem c3_exact_match_reformatted {x t : List Char}
    (hct : clean_text x = some t) (hm : matchesAnyPattern t = true) :
    validate_plate t = some (t.take 3 ++ '-' :: t.drop 3) ∧
    t.take 3 ++ '-' :: t.drop 3 ≠ t := by
  have hd := clean_text_all_digits hct
  have h7 := (matchesAny_digits hd).mp hm
  refine ⟨validate_digits7 hd h7, ?_⟩
  intro he
  have hlen := congrArg List.length he
  rw [List.length_append, List.length_cons, List.length_take, List.length_drop] at hlen
  omega

theorem c3_exact_match_witness :
    clean_text ['1', '2', '3', '4', '5', '6', '7'] = some ['1', '2', '3', '4', '5', '6', '7'] ∧
    matchesAnyPattern ['1', '2', '3', '4', '5', '6', '7'] = true ∧
    validate_plate ['1', '2', '3', '4', '5', '6', '7'] =
      some ((['1', '2', '3', '4', '5', '6', '7'] : List Char).take 3 ++
        '-' :: (['1', '2', '3', '4', '5', '6', '7'] : List Char).drop 3) ∧
    (['1', '2', '3', '4', '5', '6', '7'] : List Char).take 3 ++
        '-' :: (['1', '2', '3', '4', '5', '6', '7'] : List Char).drop 3 ≠
      ['1', '2', '3', '4', '5', '6', '7'] := by
  have h := c3_exact_match_reformatted (x := ['1', '2', '3', '4', '5', '6', '7'])
    (t := ['1', '2', '3', '4', '5', '6', '7']) (by decide) (by decide)
  exact ⟨by decide, by decide, h.1, h.2⟩

/-- Claim C5 counterexample: validating `12345678` yields `2345678` (single
character deletion), but re-validating the accepted text gives `"234-5678"`,
not the same text — validation is not idempotent. -/
theorem c5_idempotence_counterexample :
    validate_plate ['1', '2', '3', '4', '5', '6', '7', '8'] =
      some ['2', '3', '4', '5', '6', '7', '8'] ∧
    validate_plate ['2', '3', '4', '5', '6', '7', '8'] =
      some ['2', '3', '4', '-', '5', '6', '7', '8'] ∧
    ¬ (['2', '3', '4', '-', '5', '6', '7', '8'] : List Char) =
        ['2', '3', '4', '5', '6', '7', '8'] := by
  refine ⟨by decide, by decide, by decide⟩

/-- Claim C5 (amended): re-validating an accepted text returns it unchanged
whenever the accepted text contains a hyphen (a hyphen-less accepted text may
validate to a different string). -/
theorem c5_hyphenated_idempotent {l v : List Char}
    (h : validate_plate l = some v) (hhy : v.contains '-' = true) :
    validate_plate v = some v := by
  by_cases hemp : l.isEmpty = true
  · have hnone : validate_plate l = none := by
      unfold validate_plate
      rw [if_pos hemp]
    rw [hnone] at h
    exact absurd h (by simp)
  have hne : l.isEmpty = false := by simpa using hemp
  cases hct : clean_text l with
  | none =>
    have hnone : validate_plate l = none := by
      unfold validate_plate
      rw [hne]
      simp only [Bool.false_eq_true, if_false]
      rw [hct]
    rw [hnone] at h
    exact absurd h (by simp)
  | some t =>
    rw [validate_plate_of_clean hne hct] at h
    have hd := clean_text_all_digits hct
    by_cases hlen3 : t.length < 3
    · rw [if_pos hlen3] at h
      exact absurd h (by simp)
    rw [if_neg hlen3] at h
    by_cases hm : matchesAnyPattern t = true
    · rw [if_pos hm] at h
      have h7 := (matchesAny_digits hd).mp hm
      have hnc : t.contains '-' = false := all_digits_no_hyphen hd
      rw [hnc] at h
      simp only [Bool.not_false, if_true] at h
      have h2 : some (t.take 3 ++ '-' :: t.drop 3) = some v := by
        rw [format_digits7 hd h7] at h
        exact h
      injection h2 with h2
      rw [← h2]
      exact validate_formatted hd h7
    · have hm' : matchesAnyPattern t = false := by simpa using hm
      rw [if_neg hm] at h
      have := corrections_no_hyphen hd hm' h
      rw [hhy] at this
      exact absurd this (by simp)

theorem c5_idempotent_witness :
    validate_plate ['A', 'B', 'C', '-', '1', '2', '3', '4'] =
      some ['4', '8', '0', '-', '1', '2', '3', '4'] ∧
    (['4', '8', '0', '-', '1', '2', '3', '4'] : List Char).contains '-' = true ∧
    validate_plate ['4', '8', '0', '-', '1', '2', '3', '4'] =
      some ['4', '8', '0', '-', '1', '2', '3', '4'] :=
  ⟨by decide, by decide,
    c5_hyphenated_idempotent (l := ['A', 'B', 'C', '-', '1', '2', '3', '4'])
      (v := ['4', '8', '0', '-', '1', '2', '3', '4']) (by decide) (by decide)⟩

/-- Claim C4: during one scan session, a tracked candidate is accepted exactly
by the criteria — maximum score above the excellent threshold 0.85, or at
least 2 sightings with average above the high threshold 0.7, or at least 3
sightings with average above the minimum threshold 0.2 — and the text
returned is the first, in the order candidates were first seen, whose record
meets a criterion, at the first cycle where any record does. -/
theorem c4_voter_first_accepted {cycles : List (List (String × ℚ))} {t : String} {r : CandRec}
    (h : runCycles cycles [] = some (t, r)) :
    (excellent_confidence < r.maxConf ∨
      (2 ≤ r.count ∧ high_confidence < r.total / (r.count : ℚ)) ∨
      (3 ≤ r.count ∧ min_confidence < r.total / (r.count : ℚ))) ∧
    ∃ pre c rest l₁ l₂, cycles = pre ++ c :: rest ∧ c ≠ [] ∧
      List.foldl updateCycle [] (pre ++ [c]) = l₁ ++ (t, r) :: l₂ ∧
      (∀ q ∈ l₁, acceptsRecord q.2 = false) ∧
      (∀ p₁ c₁ p₂, pre = p₁ ++ c₁ :: p₂ → c₁ ≠ [] →
        findAccept (List.foldl updateCycle [] (p₁ ++ [c₁])) = none) := by
  obtain ⟨hacc, hrest⟩ := runCycles_sound cycles [] h
  refine ⟨?_, hrest⟩
  unfold acceptsRecord at hacc
  simp only [Bool.or_eq_true, Bool.and_eq_true, decide_eq_true_eq] at hacc
  tauto

theorem c4_voter_witness :
    (excellent_confidence < (⟨1, 9/10, 9/10⟩ : CandRec).maxConf ∨
      (2 ≤ (⟨1, 9/10, 9/10⟩ : CandRec).count ∧
        high_confidence <
          (⟨1, 9/10, 9/10⟩ : CandRec).total / (((⟨1, 9/10, 9/10⟩ : CandRec).count : ℕ) : ℚ)) ∨
      (3 ≤ (⟨1, 9/10, 9/10⟩ : CandRec).count ∧
        min_confidence <
          (⟨1, 9/10, 9/10⟩ : CandRec).total / (((⟨1, 9/10, 9/10⟩ : CandRec).count : ℕ) : ℚ))) ∧
    ∃ pre c rest l₁ l₂,
      [[("ABC-1234", (9 : ℚ)/10)]] = pre ++ c :: rest ∧ c ≠ [] ∧
      List.foldl updateCycle [] (pre ++ [c]) =
        l₁ ++ ("ABC-1234", (⟨1, 9/10, 9/10⟩ : CandRec)) :: l₂ ∧
      (∀ q ∈ l₁, acceptsRecord q.2 = false) ∧
      (∀ p₁ c₁ p₂, pre = p₁ ++ c₁ :: p₂ → c₁ ≠ [] →
        findAccept (List.foldl updateCycle [] (p₁ ++ [c₁])) = none) :=
  c4_voter_first_accepted (by
    simp [runCycles, updateCycle, updateRecord, findAccept, acceptsRecord,
      excellent_confidence, high_confidence, min_confidence, List.find?]
    norm_num)

theorem c6_timeout_witness :
    (0 : ℚ) ≤ 1/10 ∧
    (scan_until_plate (1/10) (fun _ => [])).1 = none ∧
    1/10 ≤ (scan_until_plate (1/10) (fun _ => [])).2 ∧
    (scan_until_plate (1/10) (fun _ => [])).2 < 1/10 + frameDelta := by
  have h : (scan_until_plate (1/10) (fun _ => [])).1 = none ∧
      1/10 ≤ (scan_until_plate (1/10) (fun _ => [])).2 ∧
      (scan_until_plate (1/10) (fun _ => [])).2 < 1/10 + frameDelta :=
    c6_scan_timeout (fun k => by rw [recsAt_const_nil]; rfl) (by norm_num)
  exact ⟨by norm_num, h.1, h.2.1, h.2.2⟩

/-- Claim C7 counterexample: two detections of the same text arrive with
confidences 0 and 1; the deduplication keeps the first (confidence 0), not
the highest-scoring one. -/
theorem c7_dedup_counterexample :
    dedup_detections
      [(['1', '2', '3', '4', '5', '6', '7'], 0), (['1', '2', '3', '4', '5', '6', '7'], 1)] [] =
      [(['1', '2', '3', '4', '5', '6', '7'], 0)] ∧
    (0 : ℚ) < 1 := by
  refine ⟨by decide, by norm_num⟩

/-- Claim C7 (amended): within one observation cycle, the single candidate
kept for a canonical text is the first raw detection, in processing order,
that normalizes to that text — later detections of the same text are dropped
regardless of their confidence. -/
theorem c7_dedup_keeps_first {rs : List (List Char × ℚ)} {t : List Char} {p : ℚ}
    (h : (t, p) ∈ dedup_detections rs []) :
    3 ≤ t.length ∧
    ∃ l₁ r l₂, rs = l₁ ++ r :: l₂ ∧ clean_text r.1 = some t ∧ r.2 = p ∧
      ∀ r' ∈ l₁, clean_text r'.1 ≠ some t := by
  obtain ⟨_, h3, hrest⟩ := dedup_mem_split h
  exact ⟨h3, hrest⟩

theorem c7_dedup_witness :
    (['1', '2', '3', '4', '5', '6', '7'], (0 : ℚ)) ∈
      dedup_detections
        [(['1', '2', '3', '4', '5', '6', '7'], 0), (['1', '2', '3', '4', '5', '6', '7'], 1)] [] ∧
    (3 ≤ (['1', '2', '3', '4', '5', '6', '7'] : List Char).length ∧
      ∃ l₁ r l₂,
        [(['1', '2', '3', '4', '5', '6', '7'], (0 : ℚ)),
         (['1', '2', '3', '4', '5', '6', '7'], (1 : ℚ))] = l₁ ++ r :: l₂ ∧
        clean_text r.1 = some ['1', '2', '3', '4', '5', '6', '7'] ∧ r.2 = 0 ∧
        ∀ r' ∈ l₁, clean_text r'.1 ≠ some ['1', '2', '3', '4', '5', '6', '7']) :=
  ⟨by decide, c7_dedup_keeps_first (by decide)⟩

/-- Claim C10: after a `process_frame` call emits at least one valid plate,
any `process_frame` call made less than `scan_cooldown = 1` second later
returns `(none, [])` and leaves the state untouched — in particular
`framesRead` is unchanged, i.e. no frame is read from the camera — even when
the camera is connected and scanning is active. -/
theorem c10_cooldown_blocks {st : ScannerState} {now : ℚ} {readOk : Bool}
    {dets : List (List Char × ℚ)} {out : Option Unit × List (List Char × ℚ)}
    {st' : ScannerState}
    (h : process_frame st now readOk dets = (out, st'))
    (hp : out.2 ≠ [])
    {now' : ℚ} (hlt : now' - now < scan_cooldown)
    (readOk' : Bool) (dets' : List (List Char × ℚ)) :
    process_frame st' now' readOk' dets' = ((none, []), st') := by
  unfold process_frame at h
  by_cases h1 : (!(st.scanning && st.cameraOpen)) = true
  · rw [if_pos h1] at h
    injection h with hout hst
    rw [← hout] at hp
    simp at hp
  rw [if_neg h1] at h
  by_cases h2 : now - st.last_scan_time < scan_cooldown
  · rw [if_pos h2] at h
    injection h with hout hst
    rw [← hout] at hp
    simp at hp
  rw [if_neg h2] at h
  by_cases h3 : (!readOk) = true
  · rw [if_pos h3] at h
    injection h with hout hst
    rw [← hout] at hp
    simp at hp
  rw [if_neg h3] at h
  by_cases h4 : (framePlates dets).isEmpty = true
  · rw [if_pos h4] at h
    injection h with hout hst
    rw [← hout] at hp
    simp only [ne_eq] at hp
    exact absurd (List.isEmpty_iff.mp h4) hp
  · rw [if_neg h4] at h
    injection h with hout hst
    unfold process_frame
    by_cases hsc : (!(st'.scanning && st'.cameraOpen)) = true
    · rw [if_pos hsc]
    · rw [if_neg hsc]
      have hlast : st'.last_scan_time = now := by
        rw [← hst]
      rw [hlast]
      rw [if_pos hlt]

theorem c10_cooldown_witness :
    process_frame ⟨true, true, 0, 0⟩ 5 true [(['1', '2', '3', '4', '5', '6', '7'], 1)] =
      ((some (), [(['1', '2', '3', '-', '4', '5', '6', '7'], 1)]), ⟨true, true, 5, 1⟩) ∧
    [(['1', '2', '3', '-', '4', '5', '6', '7'], (1 : ℚ))] ≠ [] ∧
    ((5 : ℚ) + 1/2) - 5 < scan_cooldown ∧
    process_frame ⟨true, true, 5, 1⟩ (5 + 1/2) true [] = ((none, []), ⟨true, true, 5, 1⟩) := by
  have hfirst : process_frame ⟨true, true, 0, 0⟩ 5 true [(['1', '2', '3', '4', '5', '6', '7'], 1)] =
      ((some (), [(['1', '2', '3', '-', '4', '5', '6', '7'], 1)]), ⟨true, true, 5, 1⟩) := by
    have hval : validate_plate ['1', '2', '3', '4', '5', '6', '7'] =
        some ['1', '2', '3', '-', '4', '5', '6', '7'] := by decide
    have hded : dedup_detections [(['1', '2', '3', '4', '5', '6', '7'], (1 : ℚ))] [] =
        [(['1', '2', '3', '4', '5', '6', '7'], (1 : ℚ))] := by decide
    unfold process_frame framePlates sortByConfDesc
    rw [hded]
    norm_num [hval, scan_cooldown, min_confidence, List.filterMap_cons]
  refine ⟨hfirst, by simp, by norm_num [scan_cooldown], ?_⟩
  exact c10_cooldown_blocks hfirst (by simp) (by norm_num [scan_cooldown]) true []
